import Mathlib

/-!
Verification development for the adsb-map live aircraft state and
track-history core.

Embedding conventions:
* JavaScript numbers are modelled as rationals (`ℚ`); `Date.now()` values
  are rationals holding integer milliseconds, Unix `lastseen` values are
  rationals holding seconds.
* A JavaScript object field that may be `null` / `undefined` / non-numeric
  is modelled as an `Option`; the `typeof x === 'number'` guard in the
  source corresponds to the `some` case.
* The `tracks` object (icao24 -> array of points) is modelled as an
  association list; `delete` is modelled by `List.filter`.
* JavaScript truthiness of a numeric field (`!ac.lastseen`) holds for the
  absent value and for `0`, which the embedding spells out as two cases.
-/

/-- One aircraft record of a snapshot, as consumed by the core hooks.
Fields the core never reads (callsign, altitude, ...) are omitted. -/
structure Aircraft where
  icao24 : String
  latitude : Option ℚ
  longitude : Option ℚ
  lastseen : Option ℚ
  deriving Repr, DecidableEq

/-- A recorded track point: `[lon, lat, timestamp]` in the source, with
`timestamp` the ingestion wall clock in milliseconds. -/
structure TrackPoint where
  lon : ℚ
  lat : ℚ
  ts : ℚ
  deriving Repr, DecidableEq

/-- The `tracks` state: a map from icao24 to the buffered points. -/
abbrev Tracks := List (String × List TrackPoint)

-- Constants from src/frontend (constants module).
def MAX_TRACK_POINTS : ℕ := 500

def TRACK_MIN_DISTANCE_CHANGE : ℚ := 1 / 1000

/-- Object read `tracks[icao24]`. -/
def lookupTrack : Tracks → String → Option (List TrackPoint)
  | [], _ => none
  | kb :: rest, k => if kb.1 = k then some kb.2 else lookupTrack rest k

/-- Object write `tracks[icao24] = buf` (replaces the existing entry,
otherwise adds a new one). -/
def setTrack : Tracks → String → List TrackPoint → Tracks
  | [], k, v => [(k, v)]
  | kb :: rest, k, v => if kb.1 = k then (k, v) :: rest else kb :: setTrack rest k v

/-- The body of the `aircraftData.forEach(ac => ...)` loop of
`updateTracks` in `useAircraftTracks`: records a position when both
coordinates are numbers and `ac.icao24` is truthy, appending to an
existing buffer only when the position moved by more than the threshold
on some axis, and slicing to the last `MAX_TRACK_POINTS` on overflow. -/
def processAircraft (nowMillis : ℚ) (tracks : Tracks) (ac : Aircraft) : Tracks :=
  match ac.latitude, ac.longitude with
  | some lat, some lon =>
    if ac.icao24 = "" then tracks
    else
      let position : TrackPoint := ⟨lon, lat, nowMillis⟩
      match lookupTrack tracks ac.icao24 with
      | none => setTrack tracks ac.icao24 [position]
      | some buf =>
        match buf.getLast? with
        | none => tracks
        | some lastPos =>
          if |lastPos.lon - lon| > TRACK_MIN_DISTANCE_CHANGE ∨
              |lastPos.lat - lat| > TRACK_MIN_DISTANCE_CHANGE then
            let newBuf := buf ++ [position]
            let sliced :=
              if newBuf.length > MAX_TRACK_POINTS then
                newBuf.drop (newBuf.length - MAX_TRACK_POINTS)
              else newBuf
            setTrack tracks ac.icao24 sliced
          else tracks
  | _, _ => tracks

/-- The cleanup pass of `updateTracks`: every buffered identifier absent
from `aircraftData` whose last point is older than
`maxAgeMinutes * 60 * 2` seconds is deleted. `currentTime` is
`Math.floor(Date.now() / 1000)`. -/
def cleanupTracks (tracks : Tracks) (aircraftData : List Aircraft)
    (nowMillis maxAgeMinutes : ℚ) : Tracks :=
  let currentTime : ℚ := ((⌊nowMillis / 1000⌋ : ℤ) : ℚ)
  let maxAgeSeconds := maxAgeMinutes * 60 * 2
  tracks.filter (fun kb =>
    if aircraftData.any (fun ac => decide (ac.icao24 = kb.1)) then true
    else
      match kb.2.getLast? with
      | none => true
      | some lastPoint => !(decide (currentTime - lastPoint.ts / 1000 > maxAgeSeconds)))

/-- `updateTracks` of `useAircraftTracks`, as a pure function of the
previous state, the snapshot, the ingestion clock (milliseconds) and the
`maxAgeMinutes` setting. -/
def updateTracks (prevTracks : Tracks) (aircraftData : List Aircraft)
    (nowMillis maxAgeMinutes : ℚ) : Tracks :=
  cleanupTracks (aircraftData.foldl (processAircraft nowMillis) prevTracks)
    aircraftData nowMillis maxAgeMinutes

/-- A run of `updateTracks` calls, one per arriving snapshot, each paired
with its ingestion clock. -/
def runUpdates (maxAgeMinutes : ℚ) (tracks : Tracks) :
    List (List Aircraft × ℚ) → Tracks
  | [] => tracks
  | u :: us => runUpdates maxAgeMinutes (updateTracks tracks u.1 u.2 maxAgeMinutes) us

/-- Feeding one identifier a sequence of `(lon, lat)` positions, one
snapshot per position, with the clock advancing 1000 ms per snapshot. -/
def feedRun (id : String) (t0 maxAgeMinutes : ℚ) (tracks : Tracks) :
    List (ℚ × ℚ) → Tracks
  | [] => tracks
  | p :: ps =>
    feedRun id (t0 + 1000) maxAgeMinutes
      (updateTracks tracks [⟨id, some p.2, some p.1, none⟩] t0 maxAgeMinutes) ps

/-- The track points `feedRun` would produce if every position were
recorded. -/
def feedPoints (t0 : ℚ) : List (ℚ × ℚ) → List TrackPoint
  | [] => []
  | p :: ps => ⟨p.1, p.2, t0⟩ :: feedPoints (t0 + 1000) ps

/-- The last `n` elements of a list (the semantics of `slice(-n)` for an
array longer than `n`, and of the identity otherwise). -/
def takeLast (n : ℕ) (l : List α) : List α := l.drop (l.length - n)

/-- Two positions differ by more than the dedup threshold on some axis. -/
def SepPos (p q : ℚ × ℚ) : Prop :=
  |p.1 - q.1| > TRACK_MIN_DISTANCE_CHANGE ∨ |p.2 - q.2| > TRACK_MIN_DISTANCE_CHANGE

instance : DecidablePred fun pq : (ℚ × ℚ) × ℚ × ℚ => SepPos pq.1 pq.2 := by
  intro pq; unfold SepPos; infer_instance

instance (p q : ℚ × ℚ) : Decidable (SepPos p q) := by
  unfold SepPos; infer_instance

/-- The keys of the track map are pairwise distinct (true of every state
reachable from the empty object). -/
def WFTracks (t : Tracks) : Prop := (t.map Prod.fst).Nodup

instance (t : Tracks) : Decidable (WFTracks t) := by
  unfold WFTracks; infer_instance

/-- `useFilteredAircraft`: keeps a record when `!ac.lastseen` (absent or
`0`) or when the age in minutes relative to `currentTime`
(`Math.floor(Date.now() / 1000)`) is at most `maxAgeMinutes`. -/
def useFilteredAircraft (aircraft : List Aircraft)
    (maxAgeMinutes currentTime : ℚ) : List Aircraft :=
  aircraft.filter (fun ac =>
    match ac.lastseen with
    | none => true
    | some t =>
      if t = 0 then true
      else
        let ageInSeconds := currentTime - t
        let ageInMinutes := ageInSeconds / 60
        decide (ageInMinutes ≤ maxAgeMinutes))

/-- An RGB color value; `'#e74c3c'` denotes `(231, 76, 60)`. -/
structure RGB where
  r : ℤ
  g : ℤ
  b : ℤ
  deriving Repr, DecidableEq

/-- `Math.round`: the nearest integer, halves toward positive infinity. -/
def jsRound (q : ℚ) : ℤ := ⌊q + 1 / 2⌋

def freshRGB : RGB := ⟨231, 76, 60⟩

def staleRGB : RGB := ⟨255, 179, 168⟩

/-- The componentwise linear interpolation (rounded) between the fresh
and stale endpoints, at blend `frac`. -/
def lerpRGB (frac : ℚ) : RGB :=
  ⟨jsRound (231 + (255 - 231) * frac),
   jsRound (76 + (179 - 76) * frac),
   jsRound (60 + (168 - 60) * frac)⟩

/-- `getAircraftColor` from the map component: falsy `lastseen` (absent
or `0`) gives full red, otherwise the color is interpolated with
`ratio = min(ageInMinutes / maxAgeMinutes, 1)`. -/
def getAircraftColor (lastseen : Option ℚ) (maxAgeMinutes currentTime : ℚ) : RGB :=
  match lastseen with
  | none => freshRGB
  | some t =>
    if t = 0 then freshRGB
    else
      let ageInSeconds := currentTime - t
      let ageInMinutes := ageInSeconds / 60
      let frac := min (ageInMinutes / maxAgeMinutes) 1
      ⟨jsRound (231 + (255 - 231) * frac),
       jsRound (76 + (179 - 76) * frac),
       jsRound (60 + (168 - 60) * frac)⟩

/-- The state of `useAircraftData`. -/
structure AircraftDataState where
  aircraft : List Aircraft
  lastUpdate : Option ℚ
  error : Option String
  loading : Bool
  deriving Repr, DecidableEq

/-- One `fetchAircraft` call of `useAircraftData`, given the outcome of
the `fetchAllAircraft` collaborator: on success it replaces the list,
stamps `lastUpdate` and clears the error; on failure it only records the
error message and clears the loading flag. -/
def fetchAircraft (s : AircraftDataState)
    (result : Except String (List Aircraft)) (now : ℚ) : AircraftDataState :=
  match result with
  | Except.ok data =>
    { aircraft := data, lastUpdate := some now, error := none, loading := false }
  | Except.error msg => { s with error := some msg, loading := false }

/-- The new buffer extends the old one only by dropping oldest points and
appending points stamped with the current ingestion clock. -/
def BufExt (old new : List TrackPoint) (now : ℚ) : Prop :=
  ∃ n tail, new = old.drop n ++ tail ∧ ∀ q ∈ tail, q.ts = now

theorem BufExt.refl (b : List TrackPoint) (now : ℚ) : BufExt b b now :=
  ⟨0, [], by simp, by simp⟩

theorem BufExt.push (h : BufExt old new now) (p : TrackPoint) (hp : p.ts = now) :
    BufExt old (new ++ [p]) now := by
  obtain ⟨n, tail, heq, hts⟩ := h
  refine ⟨n, tail ++ [p], by simp [heq], ?_⟩
  intro q hq
  rcases List.mem_append.1 hq with hq | hq
  · exact hts q hq
  · simpa using (List.mem_singleton.1 hq) ▸ hp

theorem BufExt.dropFront (h : BufExt old new now) (m : ℕ) :
    BufExt old (new.drop m) now := by
  obtain ⟨n, tail, heq, hts⟩ := h
  refine ⟨n + m, tail.drop (m - (old.drop n).length), ?_, ?_⟩
  · subst heq
    rw [List.drop_append_eq_append_drop, List.drop_drop]
  · intro q hq
    exact hts q (List.mem_of_mem_drop hq)

theorem BufExt.trans (h1 : BufExt b1 b2 now) (h2 : BufExt b2 b3 now) :
    BufExt b1 b3 now := by
  obtain ⟨n1, t1, he1, ht1⟩ := h1
  obtain ⟨n2, t2, he2, ht2⟩ := h2
  subst he1 he2
  rw [List.drop_append_eq_append_drop, List.drop_drop, List.append_assoc]
  refine ⟨n1 + n2, t1.drop (n2 - (b1.drop n1).length) ++ t2, by rw [Nat.add_comm n1 n2], ?_⟩
  intro q hq
  rcases List.mem_append.1 hq with hq | hq
  · exact ht1 q (List.mem_of_mem_drop hq)
  · exact ht2 q hq

theorem lookup_setTrack_self (t : Tracks) (k : String) (v : List TrackPoint) :
    lookupTrack (setTrack t k v) k = some v := by
  induction t with
  | nil => simp [setTrack, lookupTrack]
  | cons kb rest ih =>
    by_cases h : kb.1 = k
    · simp [setTrack, h, lookupTrack]
    · simp [setTrack, h, lookupTrack, ih]

theorem lookup_setTrack_ne (t : Tracks) (h : k2 ≠ k) :
    lookupTrack (setTrack t k v) k2 = lookupTrack t k2 := by
  induction t with
  | nil =>
    rw [setTrack, lookupTrack, lookupTrack, if_neg (fun hk : k = k2 => h hk.symm)]
    rfl
  | cons kb rest ih =>
    by_cases hk : kb.1 = k
    · rw [setTrack, if_pos hk, lookupTrack, lookupTrack,
        if_neg (fun hk2 : k = k2 => h hk2.symm), if_neg (fun hk2 => h ((hk ▸ hk2 : k = k2)).symm)]
    · rw [setTrack, if_neg hk, lookupTrack, lookupTrack]
      by_cases hk2 : kb.1 = k2
      · rw [if_pos hk2, if_pos hk2]
      · rw [if_neg hk2, if_neg hk2, ih]

theorem mem_setTrack (h : kb ∈ setTrack t k v) : kb ∈ t ∨ kb = (k, v) := by
  induction t with
  | nil => simpa [setTrack] using h
  | cons kb2 rest ih =>
    by_cases hk : kb2.1 = k
    · rcases List.mem_cons.1 (by simpa [setTrack, hk] using h) with h1 | h1
      · exact Or.inr h1
      · exact Or.inl (List.mem_cons_of_mem _ h1)
    · rcases List.mem_cons.1 (by simpa [setTrack, hk] using h) with h1 | h1
      · exact Or.inl (h1 ▸ List.mem_cons_self _ _)
      · rcases ih h1 with h2 | h2
        · exact Or.inl (List.mem_cons_of_mem _ h2)
        · exact Or.inr h2

theorem mem_keys_setTrack :
    k2 ∈ (setTrack t k v).map Prod.fst ↔ k2 ∈ t.map Prod.fst ∨ k2 = k := by
  induction t with
  | nil => simp [setTrack]
  | cons kb rest ih =>
    by_cases hk : kb.1 = k
    · subst hk
      rw [setTrack, if_pos rfl, List.map_cons, List.map_cons]
      simp only [List.mem_cons]
      tauto
    · rw [setTrack, if_neg hk, List.map_cons, List.map_cons]
      simp only [List.mem_cons, ih]
      tauto

theorem WF_setTrack (hwf : WFTracks t) : WFTracks (setTrack t k v) := by
  induction t with
  | nil => simp [WFTracks, setTrack]
  | cons kb rest ih =>
    rw [WFTracks, List.map_cons, List.nodup_cons] at hwf
    by_cases hk : kb.1 = k
    · subst hk
      simpa [WFTracks, setTrack, List.nodup_cons] using hwf
    · rw [WFTracks, setTrack, if_neg hk, List.map_cons, List.nodup_cons]
      refine ⟨?_, ih hwf.2⟩
      rw [mem_keys_setTrack]
      rintro (h | h)
      · exact hwf.1 h
      · exact hk h

theorem lookup_eq_none_of_not_mem_keys (h : k ∉ t.map Prod.fst) :
    lookupTrack t k = none := by
  induction t with
  | nil => rfl
  | cons kb rest ih =>
    simp only [List.map_cons, List.mem_cons] at h
    push_neg at h
    rw [lookupTrack, if_neg (fun hk => h.1 hk.symm)]
    exact ih h.2

theorem lookup_filter_kept (h : lookupTrack t k = some v) (hp : p (k, v) = true) :
    lookupTrack (t.filter p) k = some v := by
  induction t with
  | nil => simp [lookupTrack] at h
  | cons kb rest ih =>
    by_cases hk : kb.1 = k
    · rw [lookupTrack, if_pos hk] at h
      obtain rfl : kb = (k, v) := by
        obtain ⟨k1, v1⟩ := kb
        simp at hk h
        simp [hk, h]
      rw [List.filter_cons, if_pos hp, lookupTrack, if_pos rfl]
    · rw [lookupTrack, if_neg hk] at h
      rw [List.filter_cons]
      by_cases hkeep : p kb = true
      · rw [if_pos hkeep, lookupTrack, if_neg hk]
        exact ih h
      · rw [if_neg hkeep]
        exact ih h

theorem lookup_filter_dropped (hwf : WFTracks t) (h : lookupTrack t k = some v)
    (hp : p (k, v) = false) : lookupTrack (t.filter p) k = none := by
  induction t with
  | nil => simp [lookupTrack] at h
  | cons kb rest ih =>
    rw [WFTracks, List.map_cons, List.nodup_cons] at hwf
    by_cases hk : kb.1 = k
    · rw [lookupTrack, if_pos hk] at h
      obtain rfl : kb = (k, v) := by
        obtain ⟨k1, v1⟩ := kb
        simp at hk h
        simp [hk, h]
      rw [List.filter_cons, if_neg (by simp [hp])]
      refine lookup_eq_none_of_not_mem_keys (fun hmem => hwf.1 ?_)
      have : (rest.filter p).map Prod.fst ⊆ rest.map Prod.fst :=
        List.map_subset _ (List.filter_subset' _)
      exact this hmem
    · rw [lookupTrack, if_neg hk] at h
      rw [List.filter_cons]
      by_cases hkeep : p kb = true
      · rw [if_pos hkeep, lookupTrack, if_neg hk]
        exact ih hwf.2 h
      · rw [if_neg hkeep]
        exact ih hwf.2 h

theorem WF_filter (hwf : WFTracks t) : WFTracks (t.filter p) := by
  induction t with
  | nil => simp [WFTracks]
  | cons kb rest ih =>
    rw [WFTracks, List.map_cons, List.nodup_cons] at hwf
    rw [List.filter_cons]
    by_cases hkeep : p kb = true
    · rw [if_pos hkeep, WFTracks, List.map_cons, List.nodup_cons]
      refine ⟨fun hmem => hwf.1 ?_, ih hwf.2⟩
      exact List.map_subset _ (List.filter_subset' _) hmem
    · rw [if_neg hkeep]
      exact ih hwf.2

theorem process_lookup_ne {ac : Aircraft} (hne : ac.icao24 ≠ k) (t : Tracks) (now : ℚ) :
    lookupTrack (processAircraft now t ac) k = lookupTrack t k := by
  unfold processAircraft
  repeat' split
  all_goals first
    | rfl
    | exact lookup_setTrack_ne t (Ne.symm hne)

theorem process_lookup_some {ac : Aircraft} (t : Tracks) (now : ℚ)
    (h : lookupTrack t k = some buf) :
    ∃ b, lookupTrack (processAircraft now t ac) k = some b ∧ BufExt buf b now := by
  by_cases hne : ac.icao24 = k
  · subst hne
    unfold processAircraft
    cases hla : ac.latitude with
    | none => exact ⟨buf, h, BufExt.refl buf now⟩
    | some lat =>
      cases hlo : ac.longitude with
      | none => exact ⟨buf, h, BufExt.refl buf now⟩
      | some lon =>
        dsimp only
        by_cases hid : ac.icao24 = ""
        · rw [if_pos hid]
          exact ⟨buf, h, BufExt.refl buf now⟩
        · rw [if_neg hid, h]
          dsimp only
          cases hlast : buf.getLast? with
          | none => exact ⟨buf, h, BufExt.refl buf now⟩
          | some lastPos =>
            dsimp only
            by_cases hsep : |lastPos.lon - lon| > TRACK_MIN_DISTANCE_CHANGE ∨
                |lastPos.lat - lat| > TRACK_MIN_DISTANCE_CHANGE
            · rw [if_pos hsep]
              refine ⟨_, lookup_setTrack_self t ac.icao24 _, ?_⟩
              have hpush : BufExt buf (buf ++ [⟨lon, lat, now⟩]) now :=
                BufExt.push (BufExt.refl buf now) _ rfl
              split
              · exact hpush.dropFront _
              · exact hpush
            · rw [if_neg hsep]
              exact ⟨buf, h, BufExt.refl buf now⟩
  · exact ⟨buf, by rw [process_lookup_ne hne t now, h], BufExt.refl buf now⟩

theorem WF_process (hwf : WFTracks t) : WFTracks (processAircraft now t ac) := by
  unfold processAircraft
  repeat' split
  all_goals first
    | exact hwf
    | exact WF_setTrack hwf

theorem cap_process (hcap : ∀ kb ∈ t, (kb.2).length ≤ MAX_TRACK_POINTS) :
    ∀ kb ∈ processAircraft now t ac, (kb.2).length ≤ MAX_TRACK_POINTS := by
  intro kb hkb
  unfold processAircraft at hkb
  repeat' split at hkb
  all_goals first
    | exact hcap kb hkb
    | (rcases mem_setTrack hkb with h1 | h1
       · exact hcap kb h1
       · subst h1
         first
           | (simp [MAX_TRACK_POINTS]; done)
           | (split <;>
               (rename_i hc
                simp only [MAX_TRACK_POINTS, List.length_drop, List.length_append,
                  List.length_cons, List.length_nil] at hc ⊢
                omega)))

theorem mem_of_lookup_some (h : lookupTrack t k = some v) : (k, v) ∈ t := by
  induction t with
  | nil => simp [lookupTrack] at h
  | cons kb rest ih =>
    by_cases hk : kb.1 = k
    · rw [lookupTrack, if_pos hk] at h
      obtain ⟨k1, v1⟩ := kb
      simp only at hk
      simp only [Option.some.injEq] at h
      subst hk h
      exact List.mem_cons_self _ _
    · rw [lookupTrack, if_neg hk] at h
      exact List.mem_cons_of_mem _ (ih h)

theorem slice_eq_takeLast (n : ℕ) (l : List α) :
    (if l.length > n then l.drop (l.length - n) else l) = takeLast n l := by
  unfold takeLast
  split
  · rfl
  · rename_i h
    rw [Nat.sub_eq_zero_of_le (Nat.le_of_not_lt h), List.drop_zero]

theorem mem_process_elim (hkb : kb ∈ processAircraft now t ac) :
    kb ∈ t ∨
    ∃ lat lon, ac.latitude = some lat ∧ ac.longitude = some lon ∧ kb.1 = ac.icao24 ∧
      (kb.2 = [⟨lon, lat, now⟩] ∨
       ∃ buf, lookupTrack t ac.icao24 = some buf ∧
         kb.2 = takeLast MAX_TRACK_POINTS (buf ++ [⟨lon, lat, now⟩])) := by
  unfold processAircraft at hkb
  cases hla : ac.latitude with
  | none => rw [hla] at hkb; exact Or.inl hkb
  | some lat =>
    cases hlo : ac.longitude with
    | none => rw [hla, hlo] at hkb; exact Or.inl hkb
    | some lon =>
      rw [hla, hlo] at hkb
      dsimp only at hkb
      by_cases hid : ac.icao24 = ""
      · rw [if_pos hid] at hkb
        exact Or.inl hkb
      · rw [if_neg hid] at hkb
        cases hbuf : lookupTrack t ac.icao24 with
        | none =>
          rw [hbuf] at hkb
          dsimp only at hkb
          rcases mem_setTrack hkb with h1 | h1
          · exact Or.inl h1
          · refine Or.inr ⟨lat, lon, rfl, rfl, by rw [h1], Or.inl (by rw [h1])⟩
        | some buf =>
          rw [hbuf] at hkb
          dsimp only at hkb
          cases hlast : buf.getLast? with
          | none =>
            rw [hlast] at hkb
            exact Or.inl hkb
          | some lastPos =>
            rw [hlast] at hkb
            dsimp only at hkb
            split at hkb
            · rcases mem_setTrack hkb with h1 | h1
              · exact Or.inl h1
              · refine Or.inr ⟨lat, lon, rfl, rfl, by rw [h1], Or.inr ⟨buf, rfl, ?_⟩⟩
                rw [h1, ← slice_eq_takeLast]
            · exact Or.inl hkb

/-- Every buffer is in chronological order and all its capture
timestamps are bounded by the clock `c`. -/
def TracksChron (t : Tracks) (c : ℚ) : Prop :=
  ∀ kb ∈ t, List.Chain' (fun a b : TrackPoint => a.ts ≤ b.ts) kb.2 ∧ ∀ q ∈ kb.2, q.ts ≤ c

theorem TracksChron.mono (hc : TracksChron t c) (h : c ≤ c2) : TracksChron t c2 :=
  fun kb hkb => ⟨(hc kb hkb).1, fun q hq => le_trans ((hc kb hkb).2 q hq) h⟩

set_option maxRecDepth 4000 in
theorem chron_process (hc : TracksChron t now) : TracksChron (processAircraft now t ac) now := by
  intro kb hkb
  rcases mem_process_elim hkb with h | ⟨lat, lon, _, _, hk1, hcase⟩
  · exact hc kb h
  · rcases hcase with h2 | ⟨buf, hbuf, h2⟩
    · rw [h2]
      refine ⟨List.chain'_singleton _, ?_⟩
      intro q hq
      simp [List.mem_singleton.1 hq]
    · have hb := hc (ac.icao24, buf) (mem_of_lookup_some hbuf)
      rw [h2]
      unfold takeLast
      constructor
      · apply List.Chain'.drop
        rw [List.chain'_append]
        refine ⟨hb.1, List.chain'_singleton _, ?_⟩
        intro x hx y hy
        simp only [List.head?_cons, Option.mem_def, Option.some.injEq] at hy
        rw [← hy]
        exact hb.2 x (List.mem_of_getLast?_eq_some hx)
      · intro q hq
        rcases List.mem_append.1 (List.mem_of_mem_drop hq) with h3 | h3
        · exact hb.2 q h3
        · simp [List.mem_singleton.1 h3]

theorem foldl_lookup_ne (snap : List Aircraft) (h : ∀ ac ∈ snap, ac.icao24 ≠ k)
    (t : Tracks) : lookupTrack (snap.foldl (processAircraft now) t) k = lookupTrack t k := by
  induction snap generalizing t with
  | nil => rfl
  | cons ac rest ih =>
    rw [List.foldl_cons, ih (fun a ha => h a (List.mem_cons_of_mem _ ha)),
      process_lookup_ne (h ac (List.mem_cons_self _ _)) t now]

theorem foldl_lookup_some (snap : List Aircraft) (t : Tracks)
    (h : lookupTrack t k = some buf) :
    ∃ b, lookupTrack (snap.foldl (processAircraft now) t) k = some b ∧ BufExt buf b now := by
  induction snap generalizing t buf with
  | nil => exact ⟨buf, h, BufExt.refl buf now⟩
  | cons ac rest ih =>
    obtain ⟨b1, hb1, he1⟩ := process_lookup_some t now h
    obtain ⟨b2, hb2, he2⟩ := ih _ hb1
    exact ⟨b2, by rw [List.foldl_cons]; exact hb2, he1.trans he2⟩

theorem WF_foldl (snap : List Aircraft) (t : Tracks) (hwf : WFTracks t) :
    WFTracks (snap.foldl (processAircraft now) t) := by
  induction snap generalizing t with
  | nil => exact hwf
  | cons ac rest ih => exact List.foldl_cons _ _ ▸ ih _ (WF_process hwf)

theorem cap_foldl (snap : List Aircraft) (t : Tracks)
    (hcap : ∀ kb ∈ t, (kb.2).length ≤ MAX_TRACK_POINTS) :
    ∀ kb ∈ snap.foldl (processAircraft now) t, (kb.2).length ≤ MAX_TRACK_POINTS := by
  induction snap generalizing t with
  | nil => exact hcap
  | cons ac rest ih => exact List.foldl_cons _ _ ▸ ih _ (cap_process hcap)

theorem chron_foldl (snap : List Aircraft) (t : Tracks) (hc : TracksChron t now) :
    TracksChron (snap.foldl (processAircraft now) t) now := by
  induction snap generalizing t with
  | nil => exact hc
  | cons ac rest ih => exact List.foldl_cons _ _ ▸ ih _ (chron_process hc)

theorem cleanup_lookup_present
    (hp : aircraftData.any (fun ac => decide (ac.icao24 = k)) = true)
    (h : lookupTrack t k = some v) :
    lookupTrack (cleanupTracks t aircraftData now maxAge) k = some v := by
  unfold cleanupTracks
  exact lookup_filter_kept h (by simp [hp])

theorem cleanup_lookup_absent {lastPt : TrackPoint} (hwf : WFTracks t)
    (hp : aircraftData.any (fun ac => decide (ac.icao24 = k)) = false)
    (h : lookupTrack t k = some v) (hlast : v.getLast? = some lastPt) :
    lookupTrack (cleanupTracks t aircraftData now maxAge) k =
      if ((⌊now / 1000⌋ : ℤ) : ℚ) - lastPt.ts / 1000 > maxAge * 60 * 2 then none
      else some v := by
  unfold cleanupTracks
  split
  case isTrue hage => exact lookup_filter_dropped hwf h (by simp [hp, hlast, hage])
  case isFalse hage => exact lookup_filter_kept h (by simp [hp, hlast, hage])

theorem WF_cleanup (hwf : WFTracks t) :
    WFTracks (cleanupTracks t aircraftData now maxAge) := by
  unfold cleanupTracks
  exact WF_filter hwf

theorem mem_cleanup (hkb : kb ∈ cleanupTracks t aircraftData now maxAge) : kb ∈ t := by
  unfold cleanupTracks at hkb
  exact (List.mem_filter.1 hkb).1

theorem WF_update (hwf : WFTracks t) : WFTracks (updateTracks t snap now maxAge) :=
  WF_cleanup (WF_foldl snap t hwf)

theorem cap_update (hcap : ∀ kb ∈ t, (kb.2).length ≤ MAX_TRACK_POINTS) :
    ∀ kb ∈ updateTracks t snap now maxAge, (kb.2).length ≤ MAX_TRACK_POINTS :=
  fun kb hkb => cap_foldl snap t hcap kb (mem_cleanup hkb)

theorem chron_update (hc : TracksChron t c) (hle : c ≤ now) :
    TracksChron (updateTracks t snap now maxAge) now :=
  fun kb hkb => chron_foldl snap t (hc.mono hle) kb (mem_cleanup hkb)

theorem length_takeLast (n : ℕ) (l : List α) : (takeLast n l).length = min l.length n := by
  unfold takeLast
  rw [List.length_drop]
  omega

theorem takeLast_of_le (h : l.length ≤ n) : takeLast n l = l := by
  unfold takeLast
  rw [Nat.sub_eq_zero_of_le h, List.drop_zero]

theorem getLast?_takeLast (n : ℕ) (l : List α) (h : 1 ≤ n) :
    (takeLast n l).getLast? = l.getLast? := by
  unfold takeLast
  rw [List.getLast?_drop]
  split
  · rename_i hle
    have h0 : l.length = 0 := by omega
    rw [List.length_eq_zero.1 h0]
    rfl
  · rfl

theorem takeLast_append_one (n : ℕ) (h : 1 ≤ n) (l : List α) (a : α) :
    takeLast n (l ++ [a]) = takeLast (n - 1) l ++ [a] := by
  unfold takeLast
  rw [List.drop_append_eq_append_drop]
  have h1 : (l ++ [a]).length - n - l.length = 0 := by
    rw [List.length_append, List.length_cons, List.length_nil]
    omega
  rw [h1, List.drop_zero]
  congr 2
  rw [List.length_append, List.length_cons, List.length_nil]
  omega

theorem takeLast_takeLast (m n : ℕ) (l : List α) :
    takeLast m (takeLast n l) = takeLast (min m n) l := by
  unfold takeLast
  rw [List.length_drop, List.drop_drop]
  congr 1
  omega

theorem takeLast_append_takeLast (n : ℕ) (h : 1 ≤ n) (l : List α) (a : α) :
    takeLast n (takeLast n l ++ [a]) = takeLast n (l ++ [a]) := by
  rw [takeLast_append_one n h, takeLast_append_one n h, takeLast_takeLast,
    Nat.min_eq_left (by omega)]

theorem cleanup_singleton_present {id : String} {ac : Aircraft} (hk : ac.icao24 = id)
    (v : List TrackPoint) :
    cleanupTracks [(id, v)] [ac] now maxAge = [(id, v)] := by
  unfold cleanupTracks
  simp [List.filter, hk]

theorem feed_step_fresh {id : String} (hid : id ≠ "") (lat lon now maxAge : ℚ) :
    updateTracks [] [⟨id, some lat, some lon, none⟩] now maxAge
      = [(id, [⟨lon, lat, now⟩])] := by
  unfold updateTracks
  rw [List.foldl_cons, List.foldl_nil]
  have hproc : processAircraft now [] ⟨id, some lat, some lon, none⟩
      = [(id, [⟨lon, lat, now⟩])] := by
    unfold processAircraft
    dsimp only
    rw [if_neg hid]
    rfl
  rw [hproc]
  exact cleanup_singleton_present rfl _

theorem feed_step_sep {id : String} {lp : TrackPoint} (hid : id ≠ "") (buf : List TrackPoint)
    (hlast : buf.getLast? = some lp)
    (hsep : |lp.lon - lon| > TRACK_MIN_DISTANCE_CHANGE ∨
      |lp.lat - lat| > TRACK_MIN_DISTANCE_CHANGE) (now maxAge : ℚ) :
    updateTracks [(id, buf)] [⟨id, some lat, some lon, none⟩] now maxAge
      = [(id, takeLast MAX_TRACK_POINTS (buf ++ [⟨lon, lat, now⟩]))] := by
  unfold updateTracks
  rw [List.foldl_cons, List.foldl_nil]
  have hlook : lookupTrack [(id, buf)] id = some buf := by simp [lookupTrack]
  have hproc : processAircraft now [(id, buf)] ⟨id, some lat, some lon, none⟩
      = [(id, takeLast MAX_TRACK_POINTS (buf ++ [⟨lon, lat, now⟩]))] := by
    unfold processAircraft
    dsimp only
    rw [if_neg hid, hlook]
    dsimp only
    rw [hlast]
    dsimp only
    rw [if_pos hsep, slice_eq_takeLast]
    simp [setTrack]
  rw [hproc]
  exact cleanup_singleton_present rfl _

theorem feed_step_nosep {id : String} {lp : TrackPoint} (hid : id ≠ "") (buf : List TrackPoint)
    (hlast : buf.getLast? = some lp)
    (hnosep : ¬(|lp.lon - lon| > TRACK_MIN_DISTANCE_CHANGE ∨
      |lp.lat - lat| > TRACK_MIN_DISTANCE_CHANGE)) (now maxAge : ℚ) :
    updateTracks [(id, buf)] [⟨id, some lat, some lon, none⟩] now maxAge
      = [(id, buf)] := by
  unfold updateTracks
  rw [List.foldl_cons, List.foldl_nil]
  have hlook : lookupTrack [(id, buf)] id = some buf := by simp [lookupTrack]
  have hproc : processAircraft now [(id, buf)] ⟨id, some lat, some lon, none⟩
      = [(id, buf)] := by
    unfold processAircraft
    dsimp only
    rw [if_neg hid, hlook]
    dsimp only
    rw [hlast]
    dsimp only
    rw [if_neg hnosep]
  rw [hproc]
  exact cleanup_singleton_present rfl _

theorem feedRun_inv {id : String} (hid : id ≠ "") (ps : List (ℚ × ℚ)) :
    ∀ (t0 maxAge : ℚ) (P : List TrackPoint) (lp : TrackPoint),
      P.getLast? = some lp →
      List.Chain' SepPos ((lp.lon, lp.lat) :: ps) →
      feedRun id t0 maxAge [(id, takeLast MAX_TRACK_POINTS P)] ps
        = [(id, takeLast MAX_TRACK_POINTS (P ++ feedPoints t0 ps))] := by
  induction ps with
  | nil =>
    intro t0 maxAge P lp hlast hchain
    simp [feedRun, feedPoints]
  | cons p ps ih =>
    intro t0 maxAge P lp hlast hchain
    rw [feedRun]
    have hone : 1 ≤ MAX_TRACK_POINTS := by decide
    have hlast2 : (takeLast MAX_TRACK_POINTS P).getLast? = some lp := by
      rw [getLast?_takeLast _ _ hone, hlast]
    have hsep : SepPos (lp.lon, lp.lat) p := (List.chain'_cons.1 hchain).1
    rw [feed_step_sep hid _ hlast2 hsep t0 maxAge,
      takeLast_append_takeLast _ hone,
      ih (t0 + 1000) maxAge (P ++ [⟨p.1, p.2, t0⟩]) ⟨p.1, p.2, t0⟩
        (List.getLast?_concat _) ((List.chain'_cons.1 hchain).2),
      feedPoints]
    simp [List.append_assoc]

theorem feedRun_stay {id : String} (hid : id ≠ "") (ps : List (ℚ × ℚ)) :
    ∀ (t0 maxAge : ℚ) (pt0 : TrackPoint),
      (∀ p ∈ ps, ¬(|pt0.lon - p.1| > TRACK_MIN_DISTANCE_CHANGE ∨
        |pt0.lat - p.2| > TRACK_MIN_DISTANCE_CHANGE)) →
      feedRun id t0 maxAge [(id, [pt0])] ps = [(id, [pt0])] := by
  induction ps with
  | nil => intro t0 maxAge pt0 h; rfl
  | cons p ps ih =>
    intro t0 maxAge pt0 h
    rw [feedRun, feed_step_nosep hid _ (List.getLast?_singleton pt0) (h p (List.mem_cons_self _ _)) t0 maxAge]
    exact ih (t0 + 1000) maxAge pt0 (fun q hq => h q (List.mem_cons_of_mem _ hq))

theorem update_single_existing {k : String} {lp : TrackPoint} (hk : k ≠ "")
    (tracks : Tracks) (buf : List TrackPoint) (lat lon now maxAge : ℚ)
    (hbuf : lookupTrack tracks k = some buf) (hlast : buf.getLast? = some lp) :
    lookupTrack (updateTracks tracks [⟨k, some lat, some lon, none⟩] now maxAge) k
      = some (if |lp.lon - lon| > TRACK_MIN_DISTANCE_CHANGE ∨
                  |lp.lat - lat| > TRACK_MIN_DISTANCE_CHANGE
              then takeLast MAX_TRACK_POINTS (buf ++ [⟨lon, lat, now⟩])
              else buf) := by
  unfold updateTracks
  rw [List.foldl_cons, List.foldl_nil]
  have hproc : processAircraft now tracks ⟨k, some lat, some lon, none⟩
      = if |lp.lon - lon| > TRACK_MIN_DISTANCE_CHANGE ∨
            |lp.lat - lat| > TRACK_MIN_DISTANCE_CHANGE
        then setTrack tracks k (takeLast MAX_TRACK_POINTS (buf ++ [⟨lon, lat, now⟩]))
        else tracks := by
    unfold processAircraft
    dsimp only
    rw [if_neg hk, hbuf]
    dsimp only
    rw [hlast]
    dsimp only
    split
    · rw [slice_eq_takeLast]
    · rfl
  rw [hproc]
  split
  · exact cleanup_lookup_present (by simp) (lookup_setTrack_self tracks k _)
  · exact cleanup_lookup_present (by simp) hbuf

theorem jsRound_int (q : ℚ) (n : ℤ) (h1 : (n : ℚ) ≤ q + 1 / 2) (h2 : q + 1 / 2 < n + 1) :
    jsRound q = n := by
  unfold jsRound
  rw [Int.floor_eq_iff]
  exact ⟨h1, h2⟩

theorem lerpRGB_one : lerpRGB 1 = staleRGB := by
  unfold lerpRGB staleRGB
  congr 1 <;> apply jsRound_int <;> norm_num

/-- C5: the buffer update treats `0` as a valid coordinate and a missing
coordinate as a skipped record: a `(0, 0)` position produces a track
point, while a record whose latitude is absent changes nothing and is
silently skipped. -/
theorem updateTracks_zero_coordinates_valid :
    (∀ now maxAge : ℚ,
      lookupTrack (updateTracks [] [⟨"a", some 0, some 0, none⟩] now maxAge) "a"
        = some [⟨0, 0, now⟩])
    ∧ (∀ (now : ℚ) (tracks : Tracks) (ac : Aircraft), ac.latitude = none →
        processAircraft now tracks ac = tracks)
    ∧ (∀ now maxAge : ℚ, updateTracks [] [⟨"a", none, some 12, none⟩] now maxAge = []) := by
  refine ⟨?_, ?_, ?_⟩
  · intro now maxAge
    rw [feed_step_fresh (by decide) 0 0 now maxAge]
    simp [lookupTrack]
  · intro now tracks ac h
    unfold processAircraft
    rw [h]
  · intro now maxAge
    have hproc : processAircraft now [] ⟨"a", none, some 12, none⟩ = [] := rfl
    unfold updateTracks
    rw [List.foldl_cons, List.foldl_nil, hproc]
    rfl

/-- C5 witness: the theorem applied at concrete inputs. -/
theorem updateTracks_zero_coordinates_valid_witness :
    lookupTrack (updateTracks [] [⟨"a", some 0, some 0, none⟩] 0 5) "a"
        = some [⟨0, 0, 0⟩]
    ∧ processAircraft 0 [] ⟨"b", none, some 12, none⟩ = [] :=
  ⟨updateTracks_zero_coordinates_valid.1 0 5,
   updateTracks_zero_coordinates_valid.2.1 0 [] ⟨"b", none, some 12, none⟩ rfl⟩

/-- C6 counterexample: a record with `lastseen = 0` is kept by the
Recency Filter although its `lastSeen` field is present and its age
exceeds the threshold, so the claimed `absent or age within threshold`
characterization is false at this input. -/
theorem useFilteredAircraft_iff_claim_false :
    useFilteredAircraft [⟨"a", none, none, some 0⟩] 5 100000
        = [⟨"a", none, none, some 0⟩]
    ∧ (⟨"a", none, none, some 0⟩ : Aircraft).lastseen ≠ none
    ∧ ¬(((100000 : ℚ) - 0) / 60 ≤ 5) := by
  refine ⟨?_, by simp, by norm_num⟩
  simp [useFilteredAircraft, List.filter]

/-- C6 (amended): the Recency Filter keeps a record iff its `lastseen`
is absent, or is `0` (falsy, treated like absent), or its age satisfies
`(currentTime - lastseen) / 60 <= maxAgeMinutes`; the boundary is
inclusive: at exactly 300 s with `maxAgeMinutes = 5` the record is kept,
at 301 s it is dropped. -/
theorem useFilteredAircraft_keep_characterization (aircraft : List Aircraft)
    (maxAge currentTime : ℚ) (ac : Aircraft) :
    (ac ∈ useFilteredAircraft aircraft maxAge currentTime ↔
      ac ∈ aircraft ∧ (ac.lastseen = none ∨ ac.lastseen = some 0 ∨
        ∃ t, ac.lastseen = some t ∧ (currentTime - t) / 60 ≤ maxAge))
    ∧ useFilteredAircraft [⟨"a", none, none, some 700⟩] 5 1000
        = [⟨"a", none, none, some 700⟩]
    ∧ useFilteredAircraft [⟨"a", none, none, some 699⟩] 5 1000 = [] := by
  refine ⟨?_, ?_, ?_⟩
  · rw [useFilteredAircraft, List.mem_filter]
    constructor
    · rintro ⟨hmem, hp⟩
      refine ⟨hmem, ?_⟩
      cases hls : ac.lastseen with
      | none => exact Or.inl rfl
      | some t =>
        rw [hls] at hp
        dsimp only at hp
        by_cases ht : t = 0
        · exact Or.inr (Or.inl (by rw [ht]))
        · rw [if_neg ht] at hp
          exact Or.inr (Or.inr ⟨t, rfl, by simpa using hp⟩)
    · rintro ⟨hmem, hcond⟩
      refine ⟨hmem, ?_⟩
      rcases hcond with h | h | ⟨t, ht, hle⟩
      · rw [h]
      · rw [h]
        simp
      · rw [ht]
        dsimp only
        by_cases ht0 : t = 0
        · rw [if_pos ht0]
        · rw [if_neg ht0]
          exact decide_eq_true hle
  · have h : ((1000 : ℚ) - 700) / 60 ≤ 5 := by norm_num
    have h0 : ¬((700 : ℚ) = 0) := by norm_num
    simp [useFilteredAircraft, List.filter, h, h0]
  · have h : ¬(((1000 : ℚ) - 699) / 60 ≤ 5) := by norm_num
    have h0 : ¬((699 : ℚ) = 0) := by norm_num
    simp [useFilteredAircraft, List.filter, h, h0]

/-- C6 witness: the amended characterization applied at a concrete
record with a 300 s age. -/
theorem useFilteredAircraft_keep_characterization_witness :
    (⟨"a", none, none, some 700⟩ : Aircraft) ∈
      useFilteredAircraft [⟨"a", none, none, some 700⟩] 5 1000 :=
  (useFilteredAircraft_keep_characterization [⟨"a", none, none, some 700⟩] 5 1000
      ⟨"a", none, none, some 700⟩).1.mpr
    ⟨List.mem_singleton.2 rfl, Or.inr (Or.inr ⟨700, rfl, by norm_num⟩)⟩

/-- C9: a record whose `lastseen` field is present but equal to `0` is
always kept by the Recency Filter, for every clock and threshold,
because the falsy test treats `0` like an absent timestamp. -/
theorem useFilteredAircraft_zero_lastseen_included (l : List Aircraft)
    (maxAge currentTime : ℚ) (ac : Aircraft) (h0 : ac.lastseen = some 0)
    (hmem : ac ∈ l) : ac ∈ useFilteredAircraft l maxAge currentTime := by
  rw [useFilteredAircraft, List.mem_filter]
  refine ⟨hmem, ?_⟩
  rw [h0]
  simp

/-- C9 witness: the theorem applied at a concrete record and clock. -/
theorem useFilteredAircraft_zero_lastseen_included_witness :
    (⟨"a", none, none, some 0⟩ : Aircraft) ∈
      useFilteredAircraft [⟨"a", none, none, some 0⟩] 1 999999 :=
  useFilteredAircraft_zero_lastseen_included _ 1 999999 _ rfl
    (List.mem_singleton.2 rfl)

/-- C7: when the fetch collaborator fails, the previously fetched list
and the last-successful-update timestamp are unchanged, the failure
message is surfaced in `error`, and `lastUpdate` is stamped only by the
success path. -/
theorem fetchAircraft_failure_preserves_state (s : AircraftDataState) (msg : String)
    (now : ℚ) :
    (fetchAircraft s (Except.error msg) now).aircraft = s.aircraft
    ∧ (fetchAircraft s (Except.error msg) now).lastUpdate = s.lastUpdate
    ∧ (fetchAircraft s (Except.error msg) now).error = some msg
    ∧ (fetchAircraft s (Except.error msg) now).loading = false
    ∧ ∀ data : List Aircraft,
        (fetchAircraft s (Except.ok data) now).aircraft = data
        ∧ (fetchAircraft s (Except.ok data) now).lastUpdate = some now :=
  ⟨rfl, rfl, rfl, rfl, fun _ => ⟨rfl, rfl⟩⟩

/-- C10 counterexample: with a present `lastseen` of `0` and an age far
beyond the threshold, the color is the fully-fresh endpoint, not the
claimed stale endpoint: the falsy test short-circuits the
interpolation. -/
theorem getAircraftColor_claim_stale_false :
    getAircraftColor (some 0) 5 600 = freshRGB
    ∧ (5 : ℚ) ≤ ((600 : ℚ) - 0) / 60
    ∧ freshRGB ≠ staleRGB := by
  refine ⟨?_, by norm_num, by decide⟩
  simp [getAircraftColor]

/-- C10 (amended): an absent timestamp, and likewise a zero timestamp,
map to the fully-fresh color `rgb(231, 76, 60)`; for a present nonzero
timestamp and a positive threshold the color is the componentwise
rounded linear interpolation at ratio `min(age / maxAge, 1)`, so every
age of at least `maxAgeMinutes` yields the stale endpoint
`rgb(255, 179, 168)`. -/
theorem getAircraftColor_characterization :
    (∀ maxAge currentTime : ℚ, getAircraftColor none maxAge currentTime = freshRGB)
    ∧ (∀ maxAge currentTime : ℚ, getAircraftColor (some 0) maxAge currentTime = freshRGB)
    ∧ (∀ t maxAge currentTime : ℚ, t ≠ 0 → 0 < maxAge →
        getAircraftColor (some t) maxAge currentTime
          = lerpRGB (min ((currentTime - t) / 60 / maxAge) 1)
        ∧ (maxAge ≤ (currentTime - t) / 60 →
            getAircraftColor (some t) maxAge currentTime = staleRGB)) := by
  refine ⟨fun _ _ => rfl, fun maxAge ct => by simp [getAircraftColor], ?_⟩
  intro t maxAge ct ht hpos
  have heq : getAircraftColor (some t) maxAge ct
      = lerpRGB (min ((ct - t) / 60 / maxAge) 1) := by
    unfold getAircraftColor lerpRGB
    dsimp only
    rw [if_neg ht]
  refine ⟨heq, fun hage => ?_⟩
  rw [heq]
  have hmin : min ((ct - t) / 60 / maxAge) 1 = 1 := by
    rw [min_eq_right]
    rw [le_div_iff₀ hpos]
    linarith
  rw [hmin, lerpRGB_one]

/-- C10 witness: the amended theorem applied at a nonzero stale
timestamp. -/
theorem getAircraftColor_characterization_witness :
    getAircraftColor (some 60) 5 6000 = staleRGB :=
  (getAircraftColor_characterization.2.2 60 5 6000 (by norm_num) (by norm_num)).2
    (by norm_num)

/-- C2: an empty snapshot triggers exactly the normal staleness sweep —
a buffer survives iff its last point is within `2 x maxAgeMinutes` of
the current time — and in the end-to-end scenario an empty snapshot 740
seconds after the last recorded point with `maxAgeMinutes = 5` evicts
the buffer for "A". -/
theorem updateTracks_empty_snapshot_staleness :
    (∀ (tracks : Tracks) (now maxAge : ℚ),
      updateTracks tracks [] now maxAge
        = tracks.filter (fun kb =>
            match kb.2.getLast? with
            | none => true
            | some lp =>
              decide (((⌊now / 1000⌋ : ℤ) : ℚ) - lp.ts / 1000 ≤ maxAge * 60 * 2)))
    ∧ updateTracks [("A", [⟨201/10, 101/10, 1120000⟩])] [] 1860000 5 = [] := by
  constructor
  · intro tracks now maxAge
    unfold updateTracks cleanupTracks
    rw [List.foldl_nil]
    apply List.filter_congr
    intro kb _
    rw [if_neg (by simp)]
    cases kb.2.getLast? with
    | none => rfl
    | some lp =>
      dsimp only
      rw [← decide_not]
      exact decide_eq_decide.2 not_lt
  · have hp : ((⌊(1860000 : ℚ) / 1000⌋ : ℤ) : ℚ) - 1120000 / 1000 > 5 * 60 * 2 := by
      norm_num
    simp [updateTracks, cleanupTracks, List.filter, hp]

/-- C1 counterexample: a three-position sequence whose consecutive
coordinate deltas are all `<= ε` (steps of exactly `ε`) ends with a
buffer of 2 points, not 1, because the dedup test compares against the
last recorded point, so deltas can accumulate past the threshold. -/
theorem trackDedup_consecutive_claim_false :
    List.Chain' (fun p q : ℚ × ℚ =>
        |q.1 - p.1| ≤ TRACK_MIN_DISTANCE_CHANGE ∧ |q.2 - p.2| ≤ TRACK_MIN_DISTANCE_CHANGE)
      [(0, 0), (1/1000, 0), (2/1000, 0)]
    ∧ lookupTrack (feedRun "a" 0 5 [] [(0, 0), (1/1000, 0), (2/1000, 0)]) "a"
        = some [⟨0, 0, 0⟩, ⟨2/1000, 0, 2000⟩]
    ∧ ([(⟨0, 0, 0⟩ : TrackPoint), ⟨2/1000, 0, 2000⟩]).length = 2 := by
  refine ⟨?_, ?_, rfl⟩
  · rw [List.chain'_cons, List.chain'_cons]
    refine ⟨⟨?_, ?_⟩, ⟨?_, ?_⟩, List.chain'_singleton _⟩ <;>
      norm_num [TRACK_MIN_DISTANCE_CHANGE, abs_le]
  · have s1 : updateTracks [] [⟨"a", some (0 : ℚ), some (0 : ℚ), none⟩] 0 5
        = [("a", [⟨0, 0, 0⟩])] := feed_step_fresh (by decide) 0 0 0 5
    have s2 : updateTracks [("a", [⟨0, 0, 0⟩])]
          [⟨"a", some (0 : ℚ), some (1/1000 : ℚ), none⟩] 1000 5
        = [("a", [⟨0, 0, 0⟩])] := by
      refine feed_step_nosep (by decide) _ (List.getLast?_singleton _) ?_ 1000 5
      push_neg
      constructor <;> norm_num [TRACK_MIN_DISTANCE_CHANGE, abs_le]
    have s3 : updateTracks [("a", [⟨0, 0, 0⟩])]
          [⟨"a", some (0 : ℚ), some (1/500 : ℚ), none⟩] 2000 5
        = [("a", takeLast MAX_TRACK_POINTS ([⟨0, 0, 0⟩] ++ [⟨1/500, 0, 2000⟩]))] := by
      refine feed_step_sep (by decide) _ (List.getLast?_singleton _) ?_ 2000 5
      refine Or.inl ?_
      rw [TRACK_MIN_DISTANCE_CHANGE, abs_sub_comm, abs_of_nonneg (by norm_num)]
      norm_num
    rw [feedRun]
    dsimp only
    rw [s1, feedRun]
    dsimp only
    norm_num only
    rw [s2, feedRun]
    dsimp only
    norm_num only
    rw [s3, feedRun, takeLast_of_le (by simp [MAX_TRACK_POINTS])]
    norm_num [lookupTrack]

/-- C1 (amended): feeding, from no existing buffer, a sequence of
positions that all lie within `ε` of the first position on both axes
yields a buffer with exactly the one initial point; and for an existing
nonempty buffer, one update appends a point iff the incoming position
differs from the buffer's last recorded point by more than `ε` in
longitude or latitude (otherwise the buffer is returned unchanged). -/
theorem trackDedup_within_eps_single_point (id : String) (hid : id ≠ "")
    (p0 : ℚ × ℚ) (ps : List (ℚ × ℚ)) (t0 maxAge : ℚ)
    (hnear : ∀ p ∈ ps, |p.1 - p0.1| ≤ TRACK_MIN_DISTANCE_CHANGE ∧
      |p.2 - p0.2| ≤ TRACK_MIN_DISTANCE_CHANGE) :
    lookupTrack (feedRun id t0 maxAge [] (p0 :: ps)) id = some [⟨p0.1, p0.2, t0⟩]
    ∧ (∀ (tracks : Tracks) (k : String) (buf : List TrackPoint) (lp : TrackPoint)
        (lat lon now maxAge2 : ℚ), k ≠ "" →
        lookupTrack tracks k = some buf → buf.getLast? = some lp →
        lookupTrack (updateTracks tracks [⟨k, some lat, some lon, none⟩] now maxAge2) k
          = some (if |lp.lon - lon| > TRACK_MIN_DISTANCE_CHANGE ∨
                      |lp.lat - lat| > TRACK_MIN_DISTANCE_CHANGE
                  then takeLast MAX_TRACK_POINTS (buf ++ [⟨lon, lat, now⟩])
                  else buf)) := by
  constructor
  · rw [feedRun]
    rw [feed_step_fresh hid p0.2 p0.1 t0 maxAge]
    rw [feedRun_stay hid ps (t0 + 1000) maxAge ⟨p0.1, p0.2, t0⟩ ?_]
    · simp [lookupTrack]
    · intro p hp
      have h := hnear p hp
      push_neg
      constructor
      · rw [abs_sub_comm]
        exact h.1
      · rw [abs_sub_comm]
        exact h.2
  · intro tracks k buf lp lat lon now maxAge2 hk hbuf hlast
    exact update_single_existing hk tracks buf lat lon now maxAge2 hbuf hlast

/-- C1 witness: the amended theorem applied at concrete inputs, on a
two-position within-threshold sequence and on a concrete appending
update. -/
theorem trackDedup_within_eps_single_point_witness :
    lookupTrack (feedRun "a" 0 5 [] [(0, 0), (1/2000, 0)]) "a" = some [⟨0, 0, 0⟩]
    ∧ lookupTrack
        (updateTracks [("b", [⟨0, 0, 0⟩])] [⟨"b", some 0, some 1, none⟩] 1000 7) "b"
        = some [⟨0, 0, 0⟩, ⟨1, 0, 1000⟩] := by
  have h := trackDedup_within_eps_single_point "a" (by decide) (0, 0) [(1/2000, 0)] 0 5
    (by
      intro p hp
      rw [List.mem_singleton.1 hp]
      constructor <;> norm_num [TRACK_MIN_DISTANCE_CHANGE, abs_le])
  refine ⟨h.1, ?_⟩
  rw [h.2 [("b", [⟨0, 0, 0⟩])] "b" [⟨0, 0, 0⟩] ⟨0, 0, 0⟩ 0 1 1000 7 (by decide)
    (by simp [lookupTrack]) (List.getLast?_singleton _)]
  rw [if_pos (Or.inl (by norm_num [TRACK_MIN_DISTANCE_CHANGE]))]
  rw [takeLast_of_le (by simp [MAX_TRACK_POINTS])]
  simp

theorem lookup_of_mem_WF (hwf : WFTracks t) (h : (k, v) ∈ t) :
    lookupTrack t k = some v := by
  induction t with
  | nil => cases h
  | cons kb rest ih =>
    rw [WFTracks, List.map_cons, List.nodup_cons] at hwf
    rcases List.mem_cons.1 h with h1 | h1
    · rw [← h1, lookupTrack, if_pos rfl]
    · have hne : kb.1 ≠ k := by
        intro he
        apply hwf.1
        rw [he]
        exact List.mem_map_of_mem Prod.fst h1
      rw [lookupTrack, if_neg hne, ih hwf.2 h1]

/-- C4: after any update every buffer holds at most `MAX_TRACK_POINTS`
points; and feeding one identifier any sequence of positions, each
separated from the previous by more than `ε`, yields the buffer holding
the last `MAX_TRACK_POINTS` of the recorded points in chronological
order, hence exactly `min N MAX_TRACK_POINTS` points for `N`
positions. -/
theorem updateTracks_capacity :
    (∀ (tracks : Tracks) (snap : List Aircraft) (now maxAge : ℚ),
      (∀ kb ∈ tracks, (kb.2).length ≤ MAX_TRACK_POINTS) →
      ∀ kb ∈ updateTracks tracks snap now maxAge, (kb.2).length ≤ MAX_TRACK_POINTS)
    ∧ (∀ (id : String) (ps : List (ℚ × ℚ)) (t0 maxAge : ℚ), id ≠ "" →
        List.Chain' SepPos ps → ps ≠ [] →
        lookupTrack (feedRun id t0 maxAge [] ps) id
          = some (takeLast MAX_TRACK_POINTS (feedPoints t0 ps))
        ∧ (takeLast MAX_TRACK_POINTS (feedPoints t0 ps)).length
            = min ps.length MAX_TRACK_POINTS) := by
  constructor
  · intro tracks snap now maxAge h
    exact cap_update h
  · intro id ps t0 maxAge hid hchain hne
    have hlen : ∀ (t : ℚ) (l : List (ℚ × ℚ)), (feedPoints t l).length = l.length := by
      intro t l
      induction l generalizing t with
      | nil => rfl
      | cons p l ih => simp [feedPoints, ih]
    refine ⟨?_, by rw [length_takeLast, hlen]⟩
    cases ps with
    | nil => exact absurd rfl hne
    | cons p0 rest =>
      rw [feedRun, feed_step_fresh hid p0.2 p0.1 t0 maxAge]
      have h1 : [(id, [(⟨p0.1, p0.2, t0⟩ : TrackPoint)])]
          = [(id, takeLast MAX_TRACK_POINTS [⟨p0.1, p0.2, t0⟩])] := by
        rw [takeLast_of_le (by simp [MAX_TRACK_POINTS])]
      rw [h1, feedRun_inv hid rest (t0 + 1000) maxAge [⟨p0.1, p0.2, t0⟩]
        ⟨p0.1, p0.2, t0⟩ (List.getLast?_singleton _) hchain]
      rw [feedPoints]
      simp [lookupTrack]

/-- C4 witness: the theorem applied at a concrete two-position
separated feed and at a concrete bounded state. -/
theorem updateTracks_capacity_witness :
    lookupTrack (feedRun "a" 0 5 [] [(0, 0), (1, 1)]) "a"
        = some (takeLast MAX_TRACK_POINTS (feedPoints 0 [(0, 0), (1, 1)]))
    ∧ (takeLast MAX_TRACK_POINTS (feedPoints 0 [(0, 0), (1, 1)])).length
        = min 2 MAX_TRACK_POINTS
    ∧ ∀ kb ∈ updateTracks [("a", [⟨0, 0, 0⟩])] [] 1000 5,
        (kb.2).length ≤ MAX_TRACK_POINTS := by
  have h2 := updateTracks_capacity.2 "a" [(0, 0), (1, 1)] 0 5 (by decide)
    (by
      rw [List.chain'_cons]
      refine ⟨Or.inl ?_, List.chain'_singleton _⟩
      rw [TRACK_MIN_DISTANCE_CHANGE, abs_sub_comm, abs_of_nonneg (by norm_num)]
      norm_num)
    (by simp)
  refine ⟨h2.1, h2.2, ?_⟩
  exact updateTracks_capacity.1 [("a", [⟨0, 0, 0⟩])] [] 1000 5
    (by
      intro kb hkb
      rw [List.mem_singleton.1 hkb]
      simp [MAX_TRACK_POINTS])

/-- C3: in one update pass, an identifier absent from the snapshot is
evicted iff the age of its buffer's last point exceeds
`2 x maxAgeMinutes` (in seconds), and otherwise keeps its buffer
unchanged; an identifier present in the snapshot always retains a
buffer, regardless of its own `lastseen` field (which the update never
reads). -/
theorem updateTracks_eviction_characterization
    (tracks : Tracks) (snap : List Aircraft) (now maxAge : ℚ) (k : String)
    (buf : List TrackPoint) (lp : TrackPoint)
    (hwf : WFTracks tracks) (hbuf : lookupTrack tracks k = some buf)
    (hlast : buf.getLast? = some lp) :
    ((snap.any (fun ac => decide (ac.icao24 = k))) = false →
      lookupTrack (updateTracks tracks snap now maxAge) k
        = if ((⌊now / 1000⌋ : ℤ) : ℚ) - lp.ts / 1000 > maxAge * 60 * 2 then none
          else some buf)
    ∧ ((snap.any (fun ac => decide (ac.icao24 = k))) = true →
      ∃ b, lookupTrack (updateTracks tracks snap now maxAge) k = some b) := by
  constructor
  · intro habs
    have hne : ∀ ac ∈ snap, ac.icao24 ≠ k := by
      intro ac hac hcontra
      have htrue : snap.any (fun ac => decide (ac.icao24 = k)) = true :=
        List.any_eq_true.2 ⟨ac, hac, by simp [hcontra]⟩
      rw [habs] at htrue
      exact absurd htrue (by decide)
    have hfold : lookupTrack (snap.foldl (processAircraft now) tracks) k = some buf := by
      rw [foldl_lookup_ne snap hne tracks]
      exact hbuf
    exact cleanup_lookup_absent (WF_foldl snap tracks hwf) habs hfold hlast
  · intro hpres
    obtain ⟨b, hb, _⟩ := foldl_lookup_some snap tracks hbuf
    exact ⟨b, cleanup_lookup_present hpres hb⟩

/-- C3 witness: the theorem applied at a concrete buffer, with an empty
snapshot (eviction fires) and with a snapshot naming the identifier
with an arbitrarily old `lastseen` (no eviction). -/
theorem updateTracks_eviction_characterization_witness :
    lookupTrack (updateTracks [("a", [⟨0, 0, 0⟩])] [] 1000000 5) "a" = none
    ∧ ∃ b, lookupTrack
        (updateTracks [("a", [⟨0, 0, 0⟩])] [⟨"a", none, none, some 1⟩] 1000000 5) "a"
        = some b := by
  have h1 := (updateTracks_eviction_characterization [("a", [⟨0, 0, 0⟩])] [] 1000000 5
    "a" [⟨0, 0, 0⟩] ⟨0, 0, 0⟩ (by simp [WFTracks]) (by simp [lookupTrack])
    (List.getLast?_singleton _)).1 rfl
  have h2 := (updateTracks_eviction_characterization [("a", [⟨0, 0, 0⟩])]
    [⟨"a", none, none, some 1⟩] 1000000 5
    "a" [⟨0, 0, 0⟩] ⟨0, 0, 0⟩ (by simp [WFTracks]) (by simp [lookupTrack])
    (List.getLast?_singleton _)).2 (by simp)
  refine ⟨?_, h2⟩
  rw [h1, if_pos (by norm_num)]

/-- C8: one update never rewrites or reorders the points of an existing
buffer — the resulting buffer (when not evicted) is the old buffer with
some oldest points dropped and zero or more points appended, all stamped
with the current ingestion clock; consequently, over any run of updates
applied with non-decreasing clocks, every buffer stays in chronological
(non-decreasing capture timestamp) order. -/
theorem updateTracks_chronological_append_only :
    (∀ (tracks : Tracks) (snap : List Aircraft) (now maxAge : ℚ) (k : String)
        (buf : List TrackPoint), WFTracks tracks → lookupTrack tracks k = some buf →
      lookupTrack (updateTracks tracks snap now maxAge) k = none
      ∨ ∃ n tail, lookupTrack (updateTracks tracks snap now maxAge) k
          = some (buf.drop n ++ tail) ∧ ∀ q ∈ tail, q.ts = now)
    ∧ (∀ (updates : List (List Aircraft × ℚ)) (tracks : Tracks) (c maxAge : ℚ),
        TracksChron tracks c →
        List.Chain' (fun a b : ℚ => a ≤ b) (c :: updates.map Prod.snd) →
        ∀ kb ∈ runUpdates maxAge tracks updates,
          List.Chain' (fun a b : TrackPoint => a.ts ≤ b.ts) kb.2) := by
  constructor
  · intro tracks snap now maxAge k buf hwf hbuf
    cases hfin : lookupTrack (updateTracks tracks snap now maxAge) k with
    | none => exact Or.inl rfl
    | some v =>
      right
      obtain ⟨b, hb, hext⟩ := foldl_lookup_some snap tracks hbuf
      have hmemv : (k, v) ∈ snap.foldl (processAircraft now) tracks :=
        mem_cleanup (mem_of_lookup_some hfin)
      have hlook : lookupTrack (snap.foldl (processAircraft now) tracks) k = some v :=
        lookup_of_mem_WF (WF_foldl snap tracks hwf) hmemv
      rw [hb] at hlook
      obtain rfl : b = v := by injection hlook
      obtain ⟨n, tail, heq, hts⟩ := hext
      exact ⟨n, tail, congrArg some heq, hts⟩
  · intro updates
    induction updates with
    | nil =>
      intro tracks c maxAge htc _ kb hkb
      exact (htc kb hkb).1
    | cons u us ih =>
      intro tracks c maxAge htc hchain kb hkb
      rw [runUpdates] at hkb
      refine ih (updateTracks tracks u.1 u.2 maxAge) u.2 maxAge ?_ ?_ kb hkb
      · exact chron_update htc (List.chain'_cons.1 hchain).1
      · exact (List.chain'_cons.1 hchain).2

/-- C8 witness: the theorem applied to a concrete buffer and a concrete
two-snapshot run with non-decreasing clocks. -/
theorem updateTracks_chronological_append_only_witness :
    (lookupTrack (updateTracks [("a", [⟨0, 0, 0⟩])] [] 1000 5) "a" = none
      ∨ ∃ n tail, lookupTrack (updateTracks [("a", [⟨0, 0, 0⟩])] [] 1000 5) "a"
          = some (([(⟨0, 0, 0⟩ : TrackPoint)]).drop n ++ tail)
          ∧ ∀ q ∈ tail, q.ts = 1000)
    ∧ ∀ kb ∈ runUpdates 5 [("a", [⟨0, 0, 0⟩])]
          [([⟨"a", some 1, some 1, none⟩], 1000), ([], 2000)],
        List.Chain' (fun a b : TrackPoint => a.ts ≤ b.ts) kb.2 := by
  constructor
  · exact updateTracks_chronological_append_only.1 [("a", [⟨0, 0, 0⟩])] [] 1000 5 "a"
      [⟨0, 0, 0⟩] (by simp [WFTracks]) (by simp [lookupTrack])
  · exact updateTracks_chronological_append_only.2
      [([⟨"a", some 1, some 1, none⟩], 1000), ([], 2000)] [("a", [⟨0, 0, 0⟩])] 0 5
      (by
        intro kb hkb
        rw [List.mem_singleton.1 hkb]
        exact ⟨List.chain'_singleton _, by simp⟩)
      (by
        rw [List.map_cons, List.map_cons, List.map_nil, List.chain'_cons, List.chain'_cons]
        refine ⟨by norm_num, by norm_num, List.chain'_singleton _⟩)
